import Mathlib

/-!
Shallow embedding of `src/pytools/dynamo/partitioning/partition_manager.py`,
the weighted rendezvous-hashing partition router, together with proofs of the
specification claims about it.

Python `int` is modelled by `Nat`/`Int`; byte strings are lists of `Nat`
below 256.  The Python float values that appear (`_int_to_float`'s output,
i.e. a 53-bit integer divided by `2 ^ 53`) are exactly representable in IEEE
double precision, so they are modelled exactly by `ℚ`; the score arithmetic
`weight * (1.0 / -math.log f)` is modelled over `ℝ` (the idealised real
semantics of the float expression).  Exceptions are modelled with `Except`.
-/

set_option autoImplicit false
set_option maxRecDepth 40000

/-! ### UTF-8 encoding (model of Python `str.encode("utf-8")`) -/

/-- UTF-8 encoding of a single code point, as a list of bytes. -/
def utf8Char (c : Char) : List Nat :=
  let n := c.toNat
  if n < 0x80 then [n]
  else if n < 0x800 then
    [0xC0 ||| (n >>> 6), 0x80 ||| (n &&& 0x3F)]
  else if n < 0x10000 then
    [0xE0 ||| (n >>> 12), 0x80 ||| ((n >>> 6) &&& 0x3F), 0x80 ||| (n &&& 0x3F)]
  else
    [0xF0 ||| (n >>> 18), 0x80 ||| ((n >>> 12) &&& 0x3F),
     0x80 ||| ((n >>> 6) &&& 0x3F), 0x80 ||| (n &&& 0x3F)]

/-- UTF-8 encoding of a string: concatenation of the encodings of its
code points (model of Python `s.encode("utf-8")`). -/
def utf8 (s : String) : List Nat :=
  (s.data.map utf8Char).flatten

/-! ### MD5 (model of Python `hashlib.md5`)

The reference algorithm from RFC 1321: pad the message, then process it in
512-bit blocks updating a 4-word state.  `md5` returns
`int(md5(msg).hexdigest(), 16)`, i.e. the 16 digest bytes read big-endian. -/

/-- Per-round left-rotation amounts of MD5. -/
def md5Shift : List Nat :=
  [7, 12, 17, 22, 7, 12, 17, 22, 7, 12, 17, 22, 7, 12, 17, 22,
   5, 9, 14, 20, 5, 9, 14, 20, 5, 9, 14, 20, 5, 9, 14, 20,
   4, 11, 16, 23, 4, 11, 16, 23, 4, 11, 16, 23, 4, 11, 16, 23,
   6, 10, 15, 21, 6, 10, 15, 21, 6, 10, 15, 21, 6, 10, 15, 21]

/-- The 64 MD5 sine-derived constants `K[i] = floor(2^32 * abs(sin(i+1)))`. -/
def md5K : List Nat :=
  [0xd76aa478, 0xe8c7b756, 0x242070db, 0xc1bdceee,
   0xf57c0faf, 0x4787c62a, 0xa8304613, 0xfd469501,
   0x698098d8, 0x8b44f7af, 0xffff5bb1, 0x895cd7be,
   0x6b901122, 0xfd987193, 0xa679438e, 0x49b40821,
   0xf61e2562, 0xc040b340, 0x265e5a51, 0xe9b6c7aa,
   0xd62f105d, 0x02441453, 0xd8a1e681, 0xe7d3fbc8,
   0x21e1cde6, 0xc33707d6, 0xf4d50d87, 0x455a14ed,
   0xa9e3e905, 0xfcefa3f8, 0x676f02d9, 0x8d2a4c8a,
   0xfffa3942, 0x8771f681, 0x6d9d6122, 0xfde5380c,
   0xa4beea44, 0x4bdecfa9, 0xf6bb4b60, 0xbebfbc70,
   0x289b7ec6, 0xeaa127fa, 0xd4ef3085, 0x04881d05,
   0xd9d4d039, 0xe6db99e5, 0x1fa27cf8, 0xc4ac5665,
   0xf4292244, 0x432aff97, 0xab9423a7, 0xfc93a039,
   0x655b59c3, 0x8f0ccc92, 0xffeff47d, 0x85845dd1,
   0x6fa87e4f, 0xfe2ce6e0, 0xa3014314, 0x4e0811a1,
   0xf7537e82, 0xbd3af235, 0x2ad7d2bb, 0xeb86d391]

/-- Left rotation of a 32-bit word. -/
def rotl32 (x s : Nat) : Nat :=
  ((x <<< s) ||| (x >>> (32 - s))) % 2 ^ 32

/-- The four least-significant bytes of a number, little-endian. -/
def leBytes4 (x : Nat) : List Nat :=
  [x % 256, x / 2 ^ 8 % 256, x / 2 ^ 16 % 256, x / 2 ^ 24 % 256]

/-- The eight least-significant bytes of a number, little-endian. -/
def leBytes8 (x : Nat) : List Nat :=
  [x % 256, x / 2 ^ 8 % 256, x / 2 ^ 16 % 256, x / 2 ^ 24 % 256,
   x / 2 ^ 32 % 256, x / 2 ^ 40 % 256, x / 2 ^ 48 % 256, x / 2 ^ 56 % 256]

/-- Reads a byte list as a big-endian natural number. -/
def bytesToBE (l : List Nat) : Nat :=
  l.foldl (fun acc b => acc * 256 + b) 0

/-- MD5 padding: append `0x80`, zero bytes up to 56 mod 64, then the
original bit length as a 64-bit little-endian quantity. -/
def md5Pad (msg : List Nat) : List Nat :=
  msg ++ [0x80] ++ List.replicate ((119 - msg.length % 64) % 64) 0
      ++ leBytes8 (msg.length * 8 % 2 ^ 64)

/-- Splits a 64-byte block into sixteen 32-bit little-endian words. -/
def md5Words : List Nat → List Nat
  | b0 :: b1 :: b2 :: b3 :: rest =>
      (b0 + 256 * b1 + 2 ^ 16 * b2 + 2 ^ 24 * b3) :: md5Words rest
  | _ => []

/-- One MD5 round: updates the state `(a, b, c, d)` using round index `i`
and the sixteen message words `M`. -/
def md5Round (M : List Nat) (st : Nat × Nat × Nat × Nat) (i : Nat) :
    Nat × Nat × Nat × Nat :=
  let m32 : Nat := 0xFFFFFFFF
  let a := st.1
  let b := st.2.1
  let c := st.2.2.1
  let d := st.2.2.2
  let fg : Nat × Nat :=
    if i < 16 then ((b &&& c) ||| ((b ^^^ m32) &&& d), i)
    else if i < 32 then ((d &&& b) ||| ((d ^^^ m32) &&& c), (5 * i + 1) % 16)
    else if i < 48 then (b ^^^ c ^^^ d, (3 * i + 5) % 16)
    else (c ^^^ (b ||| (d ^^^ m32)), 7 * i % 16)
  let f := (fg.1 + a + md5K.getD i 0 + M.getD fg.2 0) % 2 ^ 32
  (d, (b + rotl32 f (md5Shift.getD i 0)) % 2 ^ 32, b, c)

/-- Processes one 64-byte block, returning the updated chaining state. -/
def md5Block (block : List Nat) (st : Nat × Nat × Nat × Nat) :
    Nat × Nat × Nat × Nat :=
  let M := md5Words block
  let r := (List.range 64).foldl (md5Round M) st
  ((st.1 + r.1) % 2 ^ 32, (st.2.1 + r.2.1) % 2 ^ 32,
   (st.2.2.1 + r.2.2.1) % 2 ^ 32, (st.2.2.2 + r.2.2.2) % 2 ^ 32)

/-- Folds `md5Block` over the (already padded) message, 64 bytes at a
time.  The first argument is recursion fuel — any upper bound on the
number of blocks; the caller passes the message length.  Fuel makes the
recursion structural, so that it unfolds by kernel reduction. -/
def md5Blocks : Nat → List Nat → Nat × Nat × Nat × Nat → Nat × Nat × Nat × Nat
  | 0, _, st => st
  | _ + 1, [], st => st
  | fuel + 1, h :: t, st =>
      md5Blocks fuel (t.drop 63) (md5Block ((h :: t).take 64) st)

/-- The MD5 digest of a byte list, interpreted as Python's
`int(hexdigest, 16)`: the 16 digest bytes (each state word serialised
little-endian) read as a big-endian 128-bit integer. -/
def md5 (msg : List Nat) : Nat :=
  let padded := md5Pad msg
  let r := md5Blocks padded.length padded (0x67452301, 0xefcdab89, 0x98badcfe, 0x10325476)
  bytesToBE (leBytes4 r.1 ++ leBytes4 r.2.1 ++ leBytes4 r.2.2.1 ++ leBytes4 r.2.2.2)

/-! ### The partition manager data model -/

/-- Model of class `Partition`: a name, an integer weight and a seed. -/
structure Partition where
  name : String
  weight : Int
  seed : String
deriving DecidableEq

/-- Model of the raised `PartitionManagerError`. -/
inductive PartitionManagerError where
  | configError : String → PartitionManagerError
deriving DecidableEq

/-- Model of class `PartitionManager`: its observable state is the
`_partitions` dict, an insertion-ordered map from name to `Partition`,
modelled as the list of partitions in insertion order (the iteration order
of the `partition_names` set, which Python leaves unspecified). -/
structure PartitionManager where
  partitions : List Partition
deriving DecidableEq

namespace PartitionManager

/-- Model of `PartitionManager.DEFAULT_WEIGHT`. -/
def defaultWeight : Int := 1

/-- Model of `_generate_partitions` (together with the constructor): the
`partition_names` set is passed as the list of its elements in iteration
order, and the optional `partition_weights` / `partition_seeds` dicts as
partial functions (`dict.get(k, d)` is `(f k).getD d`).  Raises
`PartitionManagerError` when `partition_names` is empty, otherwise builds
one `Partition` per name with resolved weight and seed. -/
def generatePartitions (names : List String) (weights : String → Option Int)
    (seeds : String → Option String) :
    Except PartitionManagerError (List Partition) :=
  if names.isEmpty then
    .error (.configError "partition_names cannot be empty")
  else
    .ok (names.map fun n =>
      { name := n, weight := (weights n).getD defaultWeight, seed := (seeds n).getD n })

/-- Model of `PartitionManager.__init__`: stores the partitions produced by
`_generate_partitions`, or propagates its error. -/
def mk? (names : List String) (weights : String → Option Int)
    (seeds : String → Option String) :
    Except PartitionManagerError PartitionManager :=
  (generatePartitions names weights seeds).map PartitionManager.mk

/-- Model of `_hash`: feeding `seed.encode("utf-8")` then
`key.encode("utf-8")` into a streaming MD5 digests their concatenation;
the result is the digest as an integer. -/
def hashInt (seed key : String) : Nat :=
  md5 (utf8 seed ++ utf8 key)

/-- Model of `_int_to_float`: keep the low 53 bits and divide by `2 ^ 53`.
Both the mask result (< 2^53) and the division by a power of two are exact
in IEEE double precision, so the float is modelled exactly in `ℚ`. -/
def intToFloat (value : Nat) : ℚ :=
  ((value &&& (0xFFFFFFFFFFFFFFFF >>> (64 - 53)) : Nat) : ℚ) / ((2 ^ 53 : Nat) : ℚ)

/-- Model of `_compute_weighted_score`:
`score = 1.0 / -math.log(hash_f)` and the result is `weight * score`,
over the idealised real semantics of floats. -/
noncomputable def computeWeightedScore (p : Partition) (key : String) : ℝ :=
  (p.weight : ℝ) * (1 / (-Real.log ((intToFloat (hashInt p.seed key) : ℚ) : ℝ)))

/-- Failure modes of `get_partition`: `math.log 0.0` raising `ValueError`
(when a hash fraction is exactly 0), and the `assert champion` failing. -/
inductive RouteError where
  | logDomain : RouteError
  | assertChampion : RouteError
deriving DecidableEq

/-- Model of the scoring loop of `get_partition`: walks the partitions in
order keeping the current champion and its score (`highest_score` starts at
`-1.0`, `champion` at `None`); raises `logDomain` when a partition's hash
fraction is 0 (Python's `math.log(0.0)` raises `ValueError` inside
`_compute_weighted_score`), and `assertChampion` when the loop finishes
with no champion (`assert champion`). -/
noncomputable def routeLoop (key : String) :
    List Partition → Option Partition → ℝ → Except RouteError String
  | [], champ, _ =>
      match champ with
      | some c => .ok c.name
      | none => .error .assertChampion
  | p :: ps, champ, highest =>
      if intToFloat (hashInt p.seed key) = 0 then .error .logDomain
      else if computeWeightedScore p key > highest then
        routeLoop key ps (some p) (computeWeightedScore p key)
      else
        routeLoop key ps champ highest

/-- Model of `get_partition`: the single-partition fast path returns the
lone partition's name without touching the hash; otherwise the scoring
loop runs over all partitions. -/
noncomputable def getPartition (pm : PartitionManager) (key : String) :
    Except RouteError String :=
  match pm.partitions with
  | [p] => .ok p.name
  | ps => routeLoop key ps none (-1)

/-- Model of `get_all_partition_names`. -/
def getAllPartitionNames (pm : PartitionManager) : List String :=
  pm.partitions.map Partition.name

/-- Model of `get_partition_count`. -/
def getPartitionCount (pm : PartitionManager) : Nat :=
  pm.partitions.length

/-- The weighted score as a function of the resolved weight and the hash
fraction; `computeWeightedScore` is this applied to a partition's data. -/
noncomputable def scoreVal (w : Int) (f : ℚ) : ℝ :=
  (w : ℝ) * (1 / (-Real.log (f : ℝ)))

/-- The champion tracked by the scoring loop of `get_partition`, ignoring
error conditions: starting from a current champion and `highest_score`,
each partition whose score strictly exceeds the running maximum becomes
the new champion. -/
noncomputable def champAux (key : String) :
    List Partition → Option Partition → ℝ → Option Partition
  | [], champ, _ => champ
  | p :: ps, champ, highest =>
    if computeWeightedScore p key > highest then
      champAux key ps (some p) (computeWeightedScore p key)
    else
      champAux key ps champ highest

/-! ### Concrete routers used as counterexamples and witnesses -/

/-- A two-partition router with weight `-1` everywhere, as produced by
constructing with `partition_weights = dict(a=-1, b=-1)` (the constructor
performs no weight validation). -/
def pmNeg : PartitionManager :=
  ⟨[{ name := "a", weight := -1, seed := "a" },
     { name := "b", weight := -1, seed := "b" }]⟩

/-- A three-partition router in which `"a"` and `"b"` share the seed
`"s"` (legal via `partition_seeds`), so they always tie. -/
def pmBig : PartitionManager :=
  ⟨[{ name := "a", weight := 1, seed := "s" },
     { name := "b", weight := 1, seed := "s" },
     { name := "c", weight := 1, seed := "t" }]⟩

/-- `pmBig` minus partition `"c"`, with the set's iteration order coming
out differently (Python set order is unspecified). -/
def pmSmall : PartitionManager :=
  ⟨[{ name := "b", weight := 1, seed := "s" },
     { name := "a", weight := 1, seed := "s" }]⟩

/-- A three-partition router with default seeds and weights. -/
def pmXYZ : PartitionManager :=
  ⟨[{ name := "x", weight := 1, seed := "x" },
     { name := "y", weight := 1, seed := "y" },
     { name := "z", weight := 1, seed := "z" }]⟩

/-- `pmXYZ` minus partition `"z"`, preserving the relative order. -/
def pmXY : PartitionManager :=
  ⟨[{ name := "x", weight := 1, seed := "x" },
     { name := "y", weight := 1, seed := "y" }]⟩

/-- A plain two-partition router with default weights and seeds. -/
def pmAB : PartitionManager :=
  ⟨[{ name := "a", weight := 1, seed := "a" },
     { name := "b", weight := 1, seed := "b" }]⟩

end PartitionManager

/-! ### Basic facts about the hash fraction and the digest -/

namespace PartitionManager

/-- Masking with 53 one-bits is reduction mod `2 ^ 53`: `_int_to_float`
computes `(value mod 2^53) / 2^53`. -/
theorem intToFloat_eq_mod (v : Nat) :
    intToFloat v = ((v % 2 ^ 53 : Nat) : ℚ) / ((2 ^ 53 : Nat) : ℚ) := by
  have h : (0xFFFFFFFFFFFFFFFF >>> (64 - 53) : Nat) = 2 ^ 53 - 1 := by decide
  rw [intToFloat, h, Nat.and_pow_two_sub_one_eq_mod]

theorem intToFloat_nonneg (v : Nat) : 0 ≤ intToFloat v := by
  unfold intToFloat
  positivity

theorem intToFloat_lt_one (v : Nat) : intToFloat v < 1 := by
  rw [intToFloat_eq_mod, div_lt_one (by positivity)]
  exact_mod_cast Nat.mod_lt v (by positivity)

end PartitionManager

theorem bytesToBE_lt (l : List Nat) (h : ∀ b ∈ l, b < 256) :
    bytesToBE l < 256 ^ l.length := by
  suffices haux : ∀ (t : List Nat) (acc : Nat), (∀ b ∈ t, b < 256) →
      t.foldl (fun a b => a * 256 + b) acc < (acc + 1) * 256 ^ t.length by
    simpa [bytesToBE] using haux l 0 h
  intro t
  induction t with
  | nil => intro acc _; simpa using Nat.lt_succ_self acc
  | cons b u ih =>
    intro acc hmem
    have hb : b < 256 := hmem b (by simp)
    have hu : ∀ x ∈ u, x < 256 := fun x hx => hmem x (by simp [hx])
    have h1 := ih (acc * 256 + b) hu
    have h2 : (acc * 256 + b + 1) * 256 ^ u.length ≤ (acc + 1) * 256 ^ (u.length + 1) := by
      have hstep : acc * 256 + b + 1 ≤ (acc + 1) * 256 := by omega
      calc (acc * 256 + b + 1) * 256 ^ u.length
          ≤ ((acc + 1) * 256) * 256 ^ u.length := Nat.mul_le_mul_right _ hstep
        _ = (acc + 1) * 256 ^ (u.length + 1) := by ring
    simp only [List.foldl_cons, List.length_cons]
    exact lt_of_lt_of_le h1 h2

theorem leBytes4_mem_lt (x : Nat) : ∀ b ∈ leBytes4 x, b < 256 := by
  intro b hb
  simp only [leBytes4, List.mem_cons, List.not_mem_nil, or_false] at hb
  rcases hb with h | h | h | h <;> subst h <;> exact Nat.mod_lt _ (by norm_num)

theorem bytesToBE_digest_lt (st : Nat × Nat × Nat × Nat) :
    bytesToBE (leBytes4 st.1 ++ leBytes4 st.2.1 ++ leBytes4 st.2.2.1 ++ leBytes4 st.2.2.2)
      < 2 ^ 128 := by
  have h : ∀ b ∈ leBytes4 st.1 ++ leBytes4 st.2.1 ++ leBytes4 st.2.2.1 ++ leBytes4 st.2.2.2,
      b < 256 := by
    intro b hb
    simp only [List.mem_append] at hb
    rcases hb with ((h | h) | h) | h <;> exact leBytes4_mem_lt _ _ h
  have h2 := bytesToBE_lt _ h
  have hlen :
      (leBytes4 st.1 ++ leBytes4 st.2.1 ++ leBytes4 st.2.2.1 ++ leBytes4 st.2.2.2).length = 16 := by
    simp [leBytes4]
  rw [hlen] at h2
  exact lt_of_lt_of_le h2 (by norm_num)

/-- The digest integer is a 128-bit value, matching `int(hexdigest, 16)`
of a 16-byte digest. -/
theorem md5_lt (msg : List Nat) : md5 msg < 2 ^ 128 :=
  bytesToBE_digest_lt
    (md5Blocks (md5Pad msg).length (md5Pad msg)
      (0x67452301, 0xefcdab89, 0x98badcfe, 0x10325476))

namespace PartitionManager

/-! ### The score function over the reals -/

theorem computeWeightedScore_eq (p : Partition) (key : String) :
    computeWeightedScore p key = scoreVal p.weight (intToFloat (hashInt p.seed key)) := rfl

theorem neg_log_pos {f : ℚ} (h0 : 0 < f) (h1 : f < 1) : 0 < -Real.log (f : ℝ) := by
  have hc0 : (0 : ℝ) < (f : ℝ) := by exact_mod_cast h0
  have hc1 : (f : ℝ) < 1 := by exact_mod_cast h1
  have h := Real.log_neg hc0 hc1
  linarith

theorem scoreVal_eq_div (w : Int) (f : ℚ) :
    scoreVal w f = (w : ℝ) / (-Real.log (f : ℝ)) := by
  rw [scoreVal, mul_one_div]

/-- With a strictly positive weight and a hash fraction in `(0, 1)`, the
weighted score is strictly positive. -/
theorem scoreVal_pos {w : Int} {f : ℚ} (hw : 1 ≤ w) (h0 : 0 < f) (h1 : f < 1) :
    0 < scoreVal w f := by
  rw [scoreVal_eq_div]
  apply div_pos _ (neg_log_pos h0 h1)
  exact_mod_cast lt_of_lt_of_le zero_lt_one (by exact_mod_cast hw)

/-- Exact characterisation of score comparison by a rational inequality:
`w2 / (-ln f2) < w1 / (-ln f1)` iff `f2 ^ w1 < f1 ^ w2` (integer powers in
`ℚ`).  This is what makes concrete routing decisions decidable. -/
theorem scoreVal_lt_iff {w1 w2 : Int} {f1 f2 : ℚ}
    (h01 : 0 < f1) (h11 : f1 < 1) (h02 : 0 < f2) (h12 : f2 < 1) :
    scoreVal w2 f2 < scoreVal w1 f1 ↔ f2 ^ w1 < f1 ^ w2 := by
  have a1 := neg_log_pos h01 h11
  have a2 := neg_log_pos h02 h12
  rw [scoreVal_eq_div, scoreVal_eq_div, div_lt_div_iff a2 a1]
  have e1 : (w2 : ℝ) * -Real.log (f1 : ℝ) = -Real.log ((f1 : ℝ) ^ w2) := by
    rw [Real.log_zpow]; ring
  have e2 : (w1 : ℝ) * -Real.log (f2 : ℝ) = -Real.log ((f2 : ℝ) ^ w1) := by
    rw [Real.log_zpow]; ring
  rw [e1, e2, neg_lt_neg_iff]
  rw [Real.log_lt_log_iff (zpow_pos (by exact_mod_cast h02) w1)
    (zpow_pos (by exact_mod_cast h01) w2)]
  constructor
  · intro h; exact_mod_cast h
  · intro h; exact_mod_cast h

/-- Exact characterisation of comparison with the `-1.0` sentinel that
`highest_score` starts at: `-1 < w / (-ln f)` iff `f < e ^ w`. -/
theorem neg_one_lt_scoreVal_iff {w : Int} {f : ℚ} (h0 : 0 < f) (h1 : f < 1) :
    -1 < scoreVal w f ↔ (f : ℝ) < Real.exp w := by
  have a := neg_log_pos h0 h1
  have hc0 : (0 : ℝ) < (f : ℝ) := by exact_mod_cast h0
  rw [scoreVal_eq_div, lt_div_iff a]
  constructor
  · intro h
    have hlog : Real.log (f : ℝ) < (w : ℝ) := by linarith
    exact (Real.log_lt_iff_lt_exp hc0).mp hlog
  · intro h
    have hlog : Real.log (f : ℝ) < (w : ℝ) := (Real.log_lt_iff_lt_exp hc0).mpr h
    linarith

theorem neg_one_lt_scoreVal_of_one_le {w : Int} {f : ℚ} (hw : 1 ≤ w)
    (h0 : 0 < f) (h1 : f < 1) : -1 < scoreVal w f := by
  have := scoreVal_pos hw h0 h1
  linarith

end PartitionManager

namespace PartitionManager

/-! ### Characterising the scoring loop -/

theorem routeLoop_nil_some (key : String) (c : Partition) (hi : ℝ) :
    routeLoop key [] (some c) hi = .ok c.name := rfl

theorem routeLoop_nil_none (key : String) (hi : ℝ) :
    routeLoop key [] none hi = .error .assertChampion := rfl

theorem routeLoop_cons_update (key : String) (p : Partition) (ps : List Partition)
    (champ : Option Partition) (hi : ℝ)
    (hf : intToFloat (hashInt p.seed key) ≠ 0)
    (h : hi < computeWeightedScore p key) :
    routeLoop key (p :: ps) champ hi =
      routeLoop key ps (some p) (computeWeightedScore p key) := by
  simp only [routeLoop, if_neg hf, if_pos h]

theorem routeLoop_cons_keep (key : String) (p : Partition) (ps : List Partition)
    (champ : Option Partition) (hi : ℝ)
    (hf : intToFloat (hashInt p.seed key) ≠ 0)
    (h : ¬ hi < computeWeightedScore p key) :
    routeLoop key (p :: ps) champ hi = routeLoop key ps champ hi := by
  simp only [routeLoop, if_neg hf, if_neg h]

/-- When no partition's hash fraction is 0, the loop returns the name of
the `champAux` champion, or the assertion failure if there is none. -/
theorem routeLoop_eq_champAux {key : String} {ps : List Partition}
    {champ : Option Partition} {hi : ℝ}
    (hf : ∀ p ∈ ps, intToFloat (hashInt p.seed key) ≠ 0) :
    routeLoop key ps champ hi =
      match champAux key ps champ hi with
      | some c => .ok c.name
      | none => .error .assertChampion := by
  induction ps generalizing champ hi with
  | nil => cases champ <;> rfl
  | cons p t ih =>
    have hf0 : intToFloat (hashInt p.seed key) ≠ 0 := hf p (by simp)
    have hft : ∀ q ∈ t, intToFloat (hashInt q.seed key) ≠ 0 :=
      fun q hq => hf q (by simp [hq])
    by_cases h : computeWeightedScore p key > hi
    · rw [routeLoop_cons_update key p t champ hi hf0 h]
      simp only [champAux, if_pos h]
      exact ih hft
    · rw [routeLoop_cons_keep key p t champ hi hf0 h]
      simp only [champAux, if_neg h]
      exact ih hft

/-- If every score is at most the running maximum, the champion never
changes. -/
theorem champAux_of_le {key : String} {ps : List Partition}
    {champ : Option Partition} {hi : ℝ}
    (h : ∀ p ∈ ps, computeWeightedScore p key ≤ hi) :
    champAux key ps champ hi = champ := by
  induction ps generalizing champ hi with
  | nil => rfl
  | cons p t ih =>
    have hp : ¬ hi < computeWeightedScore p key := not_lt.mpr (h p (by simp))
    simp only [champAux, if_neg hp]
    exact ih fun q hq => h q (by simp [hq])

/-- The loop keeps the first-encountered maximum: if position `i` holds a
maximal score, strictly above the running maximum `hi` and strictly above
every earlier score, then the champion is the partition at `i`. -/
theorem champAux_eq_first {key : String} (ps : List Partition)
    (champ : Option Partition) (hi : ℝ) (i : Nat) (hik : i < ps.length)
    (hgt : hi < computeWeightedScore ps[i] key)
    (hmax : ∀ (j : Nat) (hj : j < ps.length),
      computeWeightedScore ps[j] key ≤ computeWeightedScore ps[i] key)
    (hfirst : ∀ (j : Nat) (hj : j < ps.length), j < i →
      computeWeightedScore ps[j] key < computeWeightedScore ps[i] key) :
    champAux key ps champ hi = some ps[i] := by
  induction ps generalizing champ hi i with
  | nil => exact absurd hik (by simp)
  | cons p t ih =>
    cases i with
    | zero =>
      have hgt0 : computeWeightedScore p key > hi := hgt
      simp only [champAux, if_pos hgt0, List.getElem_cons_zero]
      apply champAux_of_le
      intro q hq
      obtain ⟨j, hj, rfl⟩ := List.mem_iff_get.mp hq
      have := hmax (j + 1) (by simpa using Nat.succ_lt_succ j.isLt)
      simpa using this
    | succ k =>
      have hkt : k < t.length := by simpa using hik
      have htail : (p :: t)[k + 1] = t[k] := List.getElem_cons_succ ..
      have hp0 : computeWeightedScore p key < computeWeightedScore t[k] key := by
        have := hfirst 0 (by simp) (Nat.succ_pos k)
        simpa [htail] using this
      by_cases hp : computeWeightedScore p key > hi
      · simp only [champAux, if_pos hp, htail]
        refine ih _ _ k hkt ?_ ?_ ?_
        · exact hp0
        · intro j hj
          have := hmax (j + 1) (by simpa using Nat.succ_lt_succ hj)
          simpa [htail] using this
        · intro j hj hji
          have := hfirst (j + 1) (by simpa using Nat.succ_lt_succ hj)
            (Nat.succ_lt_succ hji)
          simpa [htail] using this
      · simp only [champAux, if_neg hp, htail]
        refine ih _ _ k hkt ?_ ?_ ?_
        · simpa [htail] using hgt
        · intro j hj
          have := hmax (j + 1) (by simpa using Nat.succ_lt_succ hj)
          simpa [htail] using this
        · intro j hj hji
          have := hfirst (j + 1) (by simpa using Nat.succ_lt_succ hj)
            (Nat.succ_lt_succ hji)
          simpa [htail] using this

/-- Every nonempty partition list has a first position holding a maximal
score. -/
theorem exists_first_max (key : String) (ps : List Partition) (hne : ps ≠ []) :
    ∃ (i : Nat) (hik : i < ps.length),
      (∀ (j : Nat) (hj : j < ps.length),
        computeWeightedScore ps[j] key ≤ computeWeightedScore ps[i] key) ∧
      (∀ (j : Nat) (hj : j < ps.length), j < i →
        computeWeightedScore ps[j] key < computeWeightedScore ps[i] key) := by
  induction ps with
  | nil => exact absurd rfl hne
  | cons p t ih =>
    by_cases ht : t = []
    · subst ht
      refine ⟨0, by simp, ?_, ?_⟩
      · intro j hj
        have hj0 : j = 0 := by simpa using hj
        subst hj0
        exact le_refl _
      · intro j hj hji
        omega
    · obtain ⟨i, hik, hmax, hfirst⟩ := ih ht
      by_cases hc : computeWeightedScore t[i] key ≤ computeWeightedScore p key
      · refine ⟨0, by simp, ?_, ?_⟩
        · intro j hj
          cases j with
          | zero => simp
          | succ k =>
            have hk : k < t.length := by simpa using hj
            have := hmax k hk
            simp only [List.getElem_cons_succ, List.getElem_cons_zero]
            exact le_trans this hc
        · intro j hj hji
          omega
      · push_neg at hc
        refine ⟨i + 1, by simpa using Nat.succ_lt_succ hik, ?_, ?_⟩
        · intro j hj
          cases j with
          | zero =>
            simp only [List.getElem_cons_zero, List.getElem_cons_succ]
            exact le_of_lt hc
          | succ k =>
            have hk : k < t.length := by simpa using hj
            simpa using hmax k hk
        · intro j hj hji
          cases j with
          | zero => simpa using hc
          | succ k =>
            have hk : k < t.length := by simpa using hj
            have hki : k < i := by omega
            simpa using hfirst k hk hki

theorem getPartition_singleton (p : Partition) (key : String) :
    getPartition ⟨[p]⟩ key = .ok p.name := rfl

theorem getPartition_cons₂ (p q : Partition) (rest : List Partition) (key : String) :
    getPartition ⟨p :: q :: rest⟩ key = routeLoop key (p :: q :: rest) none (-1) := rfl

/-- Main characterisation of `get_partition` on well-behaved routers: with
a nonempty partition list, all resolved weights at least 1, and no zero
hash fraction for the key, it returns the name of the first partition
achieving the maximal weighted score. -/
theorem getPartition_ok (pm : PartitionManager) (key : String)
    (hne : pm.partitions ≠ [])
    (hw : ∀ p ∈ pm.partitions, 1 ≤ p.weight)
    (hf : ∀ p ∈ pm.partitions, intToFloat (hashInt p.seed key) ≠ 0) :
    ∃ (i : Nat) (hik : i < pm.partitions.length),
      getPartition pm key = .ok (pm.partitions[i].name) ∧
      (∀ (j : Nat) (hj : j < pm.partitions.length),
        computeWeightedScore pm.partitions[j] key
          ≤ computeWeightedScore pm.partitions[i] key) ∧
      (∀ (j : Nat) (hj : j < pm.partitions.length), j < i →
        computeWeightedScore pm.partitions[j] key
          < computeWeightedScore pm.partitions[i] key) := by
  obtain ⟨l⟩ := pm
  obtain ⟨i, hik, hmax, hfirst⟩ := exists_first_max key l hne
  have hscore : -1 < computeWeightedScore l[i] key := by
    have hmem : l[i] ∈ l := List.getElem_mem hik
    rw [computeWeightedScore_eq]
    refine neg_one_lt_scoreVal_of_one_le (hw _ hmem) ?_ (intToFloat_lt_one _)
    exact lt_of_le_of_ne (intToFloat_nonneg _) (Ne.symm (hf _ hmem))
  refine ⟨i, hik, ?_, hmax, hfirst⟩
  match l, hne with
  | [p], _ =>
    have hi0 : i = 0 := by
      have h1 := hik
      simp only [List.length_cons, List.length_nil] at h1
      omega
    subst hi0
    exact getPartition_singleton p key
  | p :: q :: rest, _ =>
    rw [getPartition_cons₂, routeLoop_eq_champAux hf,
      champAux_eq_first (p :: q :: rest) none (-1) i hik hscore hmax hfirst]

end PartitionManager

namespace PartitionManager

/-! ### Reducing hash-fraction facts to natural-number arithmetic

These bridges let concrete routing decisions be settled by `decide` on
`Nat` goals (the kernel evaluates `md5` there), avoiding any need to
normalise `ℚ` divisions. -/

theorem intToFloat_eq_zero_iff (v : Nat) : intToFloat v = 0 ↔ v % 2 ^ 53 = 0 := by
  rw [intToFloat_eq_mod, div_eq_zero_iff]
  constructor
  · intro h
    rcases h with h | h
    · exact_mod_cast h
    · exact absurd h (by positivity)
  · intro h
    left
    exact_mod_cast h

theorem intToFloat_ne_zero (v : Nat) (h : v % 2 ^ 53 ≠ 0) : intToFloat v ≠ 0 :=
  fun heq => h ((intToFloat_eq_zero_iff v).mp heq)

theorem intToFloat_pos (v : Nat) (h : v % 2 ^ 53 ≠ 0) : 0 < intToFloat v :=
  lt_of_le_of_ne (intToFloat_nonneg v) fun heq => h ((intToFloat_eq_zero_iff v).mp heq.symm)

theorem intToFloat_lt_iff (a b : Nat) :
    intToFloat a < intToFloat b ↔ a % 2 ^ 53 < b % 2 ^ 53 := by
  rw [intToFloat_eq_mod, intToFloat_eq_mod,
    div_lt_div_iff_of_pos_right (by positivity)]
  exact Nat.cast_lt

theorem div_le_intToFloat_iff (a b v : Nat) (hb : 0 < b) :
    ((a : ℚ) / (b : ℚ)) ≤ intToFloat v ↔ a * 2 ^ 53 ≤ v % 2 ^ 53 * b := by
  rw [intToFloat_eq_mod, div_le_div_iff (by exact_mod_cast hb) (by positivity)]
  constructor
  · intro h
    exact_mod_cast h
  · intro h
    exact_mod_cast h

end PartitionManager

namespace PartitionManager

/-- Shared helper: a successful construction stores exactly the resolved
partitions, in the order of the given names. -/
theorem mk?_ok_partitions {names : List String} {weights : String → Option Int}
    {seeds : String → Option String} {pm : PartitionManager}
    (h : mk? names weights seeds = .ok pm) :
    pm.partitions = names.map fun n =>
      { name := n, weight := (weights n).getD defaultWeight, seed := (seeds n).getD n } := by
  rw [mk?, generatePartitions] at h
  by_cases hne : names.isEmpty
  · rw [if_pos hne] at h
    exact absurd h (by simp [Except.map])
  · rw [if_neg hne] at h
    simp only [Except.map, Except.ok.injEq] at h
    rw [← h]

/-- Shared helper: `get_partition` on a router whose table is a single
partition returns that partition's name via the fast path. -/
theorem getPartition_of_singleton {pm : PartitionManager} {q : Partition}
    (key : String) (h : pm.partitions = [q]) :
    getPartition pm key = .ok q.name := by
  simp [getPartition, h]

/-! ### Claims about construction -/

/-- C6: constructing a router with an empty partition-name set raises
`PartitionManagerError`, regardless of the contents of the optional
weights and seeds mappings; construction never succeeds with zero
partitions. -/
theorem claim6_empty_names_error (weights : String → Option Int)
    (seeds : String → Option String) :
    mk? [] weights seeds = .error (.configError "partition_names cannot be empty") := rfl

/-- C7 counterexample: constructing with a resolved weight of `0` (≤ 0)
succeeds — no configuration error is raised, refuting the claim that
construction fails for non-positive weights. -/
theorem claim7_counterexample :
    mk? ["a"] (fun _ => some 0) (fun _ => none)
      = .ok ⟨[{ name := "a", weight := 0, seed := "a" }]⟩ := rfl

/-- C7 amended: the constructor performs no weight validation at all;
with a nonempty name list it always succeeds, whatever the weights
(including non-positive ones), producing the resolved partitions.  The
only construction-time error is the empty partition set. -/
theorem claim7_amended (names : List String) (weights : String → Option Int)
    (seeds : String → Option String) (hne : names ≠ []) :
    mk? names weights seeds
      = .ok ⟨names.map fun n =>
          { name := n, weight := (weights n).getD defaultWeight,
            seed := (seeds n).getD n }⟩ := by
  rw [mk?, generatePartitions, if_neg (by simpa using hne)]
  rfl

/-- C7 amended, witnessed at a concrete input: construction with weight
`-3` for the only partition succeeds. -/
theorem claim7_amended_witness :
    mk? ["a"] (fun _ => some (-3)) (fun _ => none)
      = .ok ⟨[{ name := "a", weight := -3, seed := "a" }]⟩ :=
  claim7_amended ["a"] (fun _ => some (-3)) (fun _ => none) (by simp)

/-- C8: after a successful construction the partition table has exactly
one `Partition` per name, in order, with weight `weights.get(name, 1)`
and seed `seeds.get(name, name)`; under distinct names, each name occurs
exactly once in the table. -/
theorem claim8_partition_table (names : List String) (weights : String → Option Int)
    (seeds : String → Option String) (pm : PartitionManager)
    (h : mk? names weights seeds = .ok pm) :
    pm.partitions = (names.map fun n =>
      { name := n, weight := (weights n).getD defaultWeight,
        seed := (seeds n).getD n }) ∧
    (names.Nodup → ∀ n ∈ names,
      pm.partitions.countP (fun p => p.name = n) = 1) := by
  have hp := mk?_ok_partitions h
  refine ⟨hp, fun hnd n hn => ?_⟩
  rw [hp, List.countP_map]
  have hcount : (names.countP ((fun p => decide (Partition.name p = n)) ∘ fun m =>
      { name := m, weight := (weights m).getD defaultWeight,
        seed := (seeds m).getD m : Partition })) = names.countP (· == n) := by
    apply List.countP_congr
    intro m _
    simp [Function.comp, beq_iff_eq]
  rw [hcount]
  have := List.count_eq_one_of_mem hnd hn
  simpa [List.count] using this

/-- C8 witness at a concrete construction with an explicit weight for
`"a"` and an explicit seed for `"b"`. -/
theorem claim8_witness :
    (⟨[{ name := "a", weight := 2, seed := "a" },
       { name := "b", weight := 1, seed := "sb" }]⟩ : PartitionManager).partitions
      = ((["a", "b"] : List String).map fun n =>
          { name := n,
            weight := ((fun m => if m = "a" then some 2 else none) n).getD defaultWeight,
            seed := ((fun m => if m = "b" then some "sb" else none) n).getD n }) ∧
    ((["a", "b"] : List String).Nodup → ∀ n ∈ (["a", "b"] : List String),
      ((⟨[{ name := "a", weight := 2, seed := "a" },
          { name := "b", weight := 1, seed := "sb" }]⟩ : PartitionManager).partitions).countP
            (fun p => p.name = n) = 1) :=
  claim8_partition_table ["a", "b"]
    (fun m => if m = "a" then some 2 else none)
    (fun m => if m = "b" then some "sb" else none) _ rfl

/-- C10: weight or seed entries under keys outside `partition_names` are
silently ignored — restricting both maps to `partition_names` yields the
very same construction result (hence identical partitions and identical
`get_partition` behaviour on every key). -/
theorem claim10_extra_entries_ignored (names : List String)
    (weights : String → Option Int) (seeds : String → Option String) :
    mk? names (fun n => if n ∈ names then weights n else none)
        (fun n => if n ∈ names then seeds n else none)
      = mk? names weights seeds := by
  rw [mk?, mk?, generatePartitions, generatePartitions]
  by_cases hne : names.isEmpty
  · rw [if_pos hne, if_pos hne]
  · rw [if_neg hne, if_neg hne]
    congr 2
    apply List.map_congr_left
    intro n hn
    simp [if_pos hn]

/-! ### Claims about the hash and the score formula -/

/-- C3: for every partition and key the weighted score equals
`weight / (-ln f)` where `f = (h mod 2^53) / 2^53` and `h` is the 128-bit
MD5 digest of the UTF-8 bytes of the seed followed by the UTF-8 bytes of
the key, read as an integer; moreover `0 ≤ f < 1`. -/
theorem claim3_score_formula (p : Partition) (key : String) :
    computeWeightedScore p key
        = (p.weight : ℝ) /
            (-Real.log (((hashInt p.seed key % 2 ^ 53 : Nat) : ℚ) / ((2 ^ 53 : Nat) : ℚ) : ℝ)) ∧
      hashInt p.seed key = md5 (utf8 p.seed ++ utf8 key) ∧
      hashInt p.seed key < 2 ^ 128 ∧
      0 ≤ intToFloat (hashInt p.seed key) ∧ intToFloat (hashInt p.seed key) < 1 := by
  refine ⟨?_, rfl, md5_lt _, intToFloat_nonneg _, intToFloat_lt_one _⟩
  rw [computeWeightedScore_eq, scoreVal_eq_div, intToFloat_eq_mod]
  norm_cast

/-- C9: the hash depends only on the concatenation of the UTF-8 bytes of
seed and key (no separator marks the boundary); equal concatenations give
the same digest, and hence partitions with equal weights whose seed/key
pairs concatenate identically receive identical scores. -/
theorem claim9_hash_concat (s1 k1 s2 k2 : String)
    (h : utf8 s1 ++ utf8 k1 = utf8 s2 ++ utf8 k2) :
    hashInt s1 k1 = hashInt s2 k2 ∧
    ∀ (n1 n2 : String) (w : Int),
      computeWeightedScore { name := n1, weight := w, seed := s1 } k1
        = computeWeightedScore { name := n2, weight := w, seed := s2 } k2 := by
  have hh : hashInt s1 k1 = hashInt s2 k2 := by rw [hashInt, hashInt, h]
  refine ⟨hh, fun n1 n2 w => ?_⟩
  rw [computeWeightedScore_eq, computeWeightedScore_eq]
  simp only [hh]

/-- C9 witness: `("ab", "c")` and `("a", "bc")` concatenate to the same
bytes, so they hash and score identically. -/
theorem claim9_witness :
    hashInt "ab" "c" = hashInt "a" "bc" ∧
    ∀ (n1 n2 : String) (w : Int),
      computeWeightedScore { name := n1, weight := w, seed := "ab" } "c"
        = computeWeightedScore { name := n2, weight := w, seed := "a" } "bc" :=
  claim9_hash_concat "ab" "c" "a" "bc" (by decide)

/-! ### Claim about the single-partition fast path -/

/-- C5: a router constructed with exactly one partition name returns that
name for every key (the fast path returns before any hash or score is
computed, so no hypothesis about the hash fraction is needed). -/
theorem claim5_single_partition (n : String) (weights : String → Option Int)
    (seeds : String → Option String) (pm : PartitionManager) (key : String)
    (h : mk? [n] weights seeds = .ok pm) :
    getPartition pm key = .ok n := by
  have hp := mk?_ok_partitions h
  simp only [List.map_cons, List.map_nil] at hp
  exact getPartition_of_singleton key hp

/-- C5 witness: the singleton router routes the empty key to its only
partition. -/
theorem claim5_witness :
    getPartition ⟨[{ name := "solo", weight := 1, seed := "solo" }]⟩ "" = .ok "solo" :=
  claim5_single_partition "solo" (fun _ => none) (fun _ => none)
    ⟨[{ name := "solo", weight := 1, seed := "solo" }]⟩ "" rfl

end PartitionManager

namespace PartitionManager

/-- Shared helper: whenever every weight is at least 1 and no hash
fraction is 0, the single-partition fast path agrees with the scoring
loop, so `get_partition` equals the loop from the initial state. -/
theorem getPartition_eq_routeLoop (pm : PartitionManager) (key : String)
    (hw : ∀ p ∈ pm.partitions, 1 ≤ p.weight)
    (hf : ∀ p ∈ pm.partitions, intToFloat (hashInt p.seed key) ≠ 0) :
    getPartition pm key = routeLoop key pm.partitions none (-1) := by
  obtain ⟨l⟩ := pm
  match l with
  | [] => rfl
  | [p] =>
    have hp : p ∈ ({ partitions := [p] } : PartitionManager).partitions := by simp
    have hf0 : intToFloat (hashInt p.seed key) ≠ 0 := hf p hp
    have hs : (-1 : ℝ) < computeWeightedScore p key := by
      rw [computeWeightedScore_eq]
      refine neg_one_lt_scoreVal_of_one_le (hw p hp) ?_ (intToFloat_lt_one _)
      exact lt_of_le_of_ne (intToFloat_nonneg _) (Ne.symm hf0)
    rw [getPartition_singleton]
    show Except.ok p.name = routeLoop key [p] none (-1)
    rw [routeLoop_cons_update key p [] none (-1) hf0 hs, routeLoop_nil_some]
  | p :: q :: rest => rfl

/-- Shared helper: the scoring loop from the initial state returns the
name at any index that is a first-encountered maximum with score above
the `-1.0` sentinel. -/
theorem routeLoop_first_max (key : String) (ps : List Partition)
    (i : Nat) (hik : i < ps.length)
    (hscore : -1 < computeWeightedScore ps[i] key)
    (hf : ∀ p ∈ ps, intToFloat (hashInt p.seed key) ≠ 0)
    (hmax : ∀ (j : Nat) (hj : j < ps.length),
      computeWeightedScore ps[j] key ≤ computeWeightedScore ps[i] key)
    (hfirst : ∀ (j : Nat) (hj : j < ps.length), j < i →
      computeWeightedScore ps[j] key < computeWeightedScore ps[i] key) :
    routeLoop key ps none (-1) = .ok (ps[i].name) := by
  rw [routeLoop_eq_champAux hf, champAux_eq_first ps none (-1) i hik hscore hmax hfirst]

/-- Shared helper: `get_partition` returns the name at any index that is
a first-encountered maximum, provided all weights are at least 1 and no
hash fraction is 0. -/
theorem getPartition_eq_of_first_max (pm : PartitionManager) (key : String)
    (i : Nat) (hik : i < pm.partitions.length)
    (hw : ∀ p ∈ pm.partitions, 1 ≤ p.weight)
    (hf : ∀ p ∈ pm.partitions, intToFloat (hashInt p.seed key) ≠ 0)
    (hmax : ∀ (j : Nat) (hj : j < pm.partitions.length),
      computeWeightedScore pm.partitions[j] key
        ≤ computeWeightedScore pm.partitions[i] key)
    (hfirst : ∀ (j : Nat) (hj : j < pm.partitions.length), j < i →
      computeWeightedScore pm.partitions[j] key
        < computeWeightedScore pm.partitions[i] key) :
    getPartition pm key = .ok (pm.partitions[i].name) := by
  have hscore : -1 < computeWeightedScore pm.partitions[i] key := by
    have hmem : pm.partitions[i] ∈ pm.partitions := List.getElem_mem hik
    rw [computeWeightedScore_eq]
    refine neg_one_lt_scoreVal_of_one_le (hw _ hmem) ?_ (intToFloat_lt_one _)
    exact lt_of_le_of_ne (intToFloat_nonneg _) (Ne.symm (hf _ hmem))
  rw [getPartition_eq_routeLoop pm key hw hf]
  exact routeLoop_first_max key pm.partitions i hik hscore hf hmax hfirst

/-! ### Claim C1 -/

/-- C1 amended: on a router with a nonempty partition table whose
resolved weights are all at least 1, and for a key giving no partition a
zero hash fraction, `get_partition` returns normally (no `ValueError`
from `math.log`, no assertion failure) and the returned name is a member
of `get_all_partition_names()`. -/
theorem claim1_total (pm : PartitionManager) (key : String)
    (hne : pm.partitions ≠ [])
    (hw : ∀ p ∈ pm.partitions, 1 ≤ p.weight)
    (hf : ∀ p ∈ pm.partitions, intToFloat (hashInt p.seed key) ≠ 0) :
    ∃ n, getPartition pm key = .ok n ∧ n ∈ getAllPartitionNames pm := by
  obtain ⟨i, hik, hok, -, -⟩ := getPartition_ok pm key hne hw hf
  refine ⟨pm.partitions[i].name, hok, ?_⟩
  rw [getAllPartitionNames]
  exact List.mem_map_of_mem _ (List.getElem_mem hik)

/-- C1 amended, witnessed on a concrete two-partition router. -/
theorem claim1_witness :
    ∃ n, getPartition pmAB "k" = .ok n ∧ n ∈ getAllPartitionNames pmAB := by
  refine claim1_total pmAB "k" (by decide) (by decide) ?_
  intro p hp
  simp only [pmAB, List.mem_cons, List.not_mem_nil, or_false] at hp
  rcases hp with rfl | rfl
  · exact intToFloat_ne_zero _ (by decide)
  · exact intToFloat_ne_zero _ (by decide)

/-- The two weight `-1` scores for key `"key7"` are at most `-1`, because
both hash fractions are at least `3/8 > e⁻¹`. -/
theorem pmNeg_not_update (v : Nat) (h38 : 3 * 2 ^ 53 ≤ v % 2 ^ 53 * 8)
    (hnz : v % 2 ^ 53 ≠ 0) :
    ¬ (-1 : ℝ) < scoreVal (-1) (intToFloat v) := by
  have h0 : 0 < intToFloat v := intToFloat_pos _ hnz
  rw [neg_one_lt_scoreVal_iff h0 (intToFloat_lt_one _), not_lt]
  have hq : ((3 : Nat) : ℚ) / ((8 : Nat) : ℚ) ≤ intToFloat v :=
    (div_le_intToFloat_iff 3 8 v (by norm_num)).mpr h38
  have hq2 : ((3 : ℚ) / 8 : ℚ) ≤ intToFloat v := by exact_mod_cast hq
  have hf38 := (Rat.cast_le (K := ℝ)).mpr hq2
  push_cast at hf38
  have hexp : Real.exp (((-1 : Int) : ℝ)) ≤ 3 / 8 := by
    have h1 : Real.exp (((-1 : Int) : ℝ)) = (Real.exp 1)⁻¹ := by
      norm_num [Real.exp_neg]
    have h2 : (Real.exp 1)⁻¹ ≤ 3 / 8 := by
      rw [inv_eq_one_div, div_le_div_iff (Real.exp_pos 1) (by norm_num)]
      nlinarith [Real.exp_one_gt_d9]
    rw [h1]
    exact h2
  exact le_trans hexp hf38

/-- Routing key `"key7"` on the all-weights-`-1` router: every score is
at most the initial `highest_score = -1.0`, so no champion is ever set
and the `assert champion` fails. -/
theorem pmNeg_run : getPartition pmNeg "key7" = .error .assertChampion := by
  have hfa : intToFloat (hashInt "a" "key7") ≠ 0 := intToFloat_ne_zero _ (by decide)
  have hfb : intToFloat (hashInt "b" "key7") ≠ 0 := intToFloat_ne_zero _ (by decide)
  have hsa : ¬ (-1 : ℝ) < scoreVal (-1) (intToFloat (hashInt "a" "key7")) :=
    pmNeg_not_update _ (by decide) (by decide)
  have hsb : ¬ (-1 : ℝ) < scoreVal (-1) (intToFloat (hashInt "b" "key7")) :=
    pmNeg_not_update _ (by decide) (by decide)
  show getPartition
    ⟨[{ name := "a", weight := -1, seed := "a" },
      { name := "b", weight := -1, seed := "b" }]⟩ "key7" = .error .assertChampion
  rw [getPartition_cons₂,
    routeLoop_cons_keep "key7" { name := "a", weight := -1, seed := "a" }
      [{ name := "b", weight := -1, seed := "b" }] none (-1) hfa hsa,
    routeLoop_cons_keep "key7" { name := "b", weight := -1, seed := "b" }
      [] none (-1) hfb hsb,
    routeLoop_nil_none]

/-- C1 counterexample: the claim quantifies over every router built from
a non-empty partition set, but the constructor accepts non-positive
weights; with both weights `-1` and key `"key7"` every score is ≤ `-1.0`,
`champion` stays `None`, and `get_partition` raises (the `assert
champion` fires) instead of returning a partition name. -/
theorem claim1_counterexample :
    mk? ["a", "b"] (fun _ => some (-1)) (fun _ => none) = .ok pmNeg ∧
    getPartition pmNeg "key7" = .error .assertChampion :=
  ⟨rfl, pmNeg_run⟩

/-! ### Claim C4 -/

/-- C4 amended: on a router with at least two partitions, all resolved
weights at least 1, and a key giving no zero hash fraction, the returned
name belongs to a partition whose score is maximal, and every partition
iterated before it scores strictly lower (the first-encountered maximum
wins ties). -/
theorem claim4_first_max (pm : PartitionManager) (key : String)
    (h2 : 2 ≤ pm.partitions.length)
    (hw : ∀ p ∈ pm.partitions, 1 ≤ p.weight)
    (hf : ∀ p ∈ pm.partitions, intToFloat (hashInt p.seed key) ≠ 0) :
    ∃ (i : Nat) (hik : i < pm.partitions.length),
      getPartition pm key = .ok (pm.partitions[i].name) ∧
      (∀ (j : Nat) (hj : j < pm.partitions.length),
        computeWeightedScore pm.partitions[j] key
          ≤ computeWeightedScore pm.partitions[i] key) ∧
      (∀ (j : Nat) (hj : j < pm.partitions.length), j < i →
        computeWeightedScore pm.partitions[j] key
          < computeWeightedScore pm.partitions[i] key) :=
  getPartition_ok pm key
    (by intro he; rw [he] at h2; simp at h2) hw hf

/-- C4 amended, witnessed on a concrete two-partition router. -/
theorem claim4_witness :
    ∃ (i : Nat) (hik : i < pmAB.partitions.length),
      getPartition pmAB "k" = .ok (pmAB.partitions[i].name) ∧
      (∀ (j : Nat) (hj : j < pmAB.partitions.length),
        computeWeightedScore pmAB.partitions[j] "k"
          ≤ computeWeightedScore pmAB.partitions[i] "k") ∧
      (∀ (j : Nat) (hj : j < pmAB.partitions.length), j < i →
        computeWeightedScore pmAB.partitions[j] "k"
          < computeWeightedScore pmAB.partitions[i] "k") := by
  refine claim4_first_max pmAB "k" (by decide) (by decide) ?_
  intro p hp
  simp only [pmAB, List.mem_cons, List.not_mem_nil, or_false] at hp
  rcases hp with rfl | rfl
  · exact intToFloat_ne_zero _ (by decide)
  · exact intToFloat_ne_zero _ (by decide)

/-- C4 counterexample: on the all-weights-`-1` two-partition router the
loop ends with no champion and `get_partition` raises instead of
returning any maximal-score partition name. -/
theorem claim4_counterexample :
    2 ≤ pmNeg.partitions.length ∧ ¬ ∃ n, getPartition pmNeg "key7" = .ok n := by
  refine ⟨by decide, ?_⟩
  rintro ⟨n, hn⟩
  rw [pmNeg_run] at hn
  exact Except.noConfusion hn

end PartitionManager

/-! ### Indexing a list with one element removed -/

theorem getElem_append_both_low {α : Type _} (l1 l2 : List α) (p : α) (j : Nat)
    (h1 : j < (l1 ++ l2).length) (h2 : j < (l1 ++ p :: l2).length)
    (hlow : j < l1.length) :
    (l1 ++ l2)[j] = (l1 ++ p :: l2)[j] :=
  (List.getElem_append_left hlow).trans (List.getElem_append_left hlow).symm

theorem getElem_append_both_high {α : Type _} (l1 l2 : List α) (p : α) (j : Nat)
    (h1 : j < (l1 ++ l2).length) (h2 : j + 1 < (l1 ++ p :: l2).length)
    (hhigh : l1.length ≤ j) :
    (l1 ++ l2)[j] = (l1 ++ p :: l2)[j + 1] := by
  rw [List.getElem_append_right hhigh,
    List.getElem_append_right (show l1.length ≤ j + 1 by omega)]
  simp only [show j + 1 - l1.length = (j - l1.length) + 1 from by omega,
    List.getElem_cons_succ]

theorem getElem_append_mid {α : Type _} (l1 l2 : List α) (p : α)
    (h : l1.length < (l1 ++ p :: l2).length) :
    (l1 ++ p :: l2)[l1.length] = p := by
  rw [List.getElem_append_right (le_refl _)]
  simp

namespace PartitionManager

/-! ### Claim C2 -/

/-- C2 amended: minimal disruption holds when the smaller router lists
the surviving partitions in the same relative order as the larger one:
removing one partition `p` (keeping weights and seeds of the rest) leaves
the routing of every key that did not map to `p` unchanged.  Weights at
least 1 and nonzero hash fractions keep both routers error-free. -/
theorem claim2_minimal_disruption (big small : PartitionManager) (p : Partition)
    (l1 l2 : List Partition) (key n : String)
    (hbig : big.partitions = l1 ++ p :: l2)
    (hsmall : small.partitions = l1 ++ l2)
    (hw : ∀ q ∈ big.partitions, 1 ≤ q.weight)
    (hf : ∀ q ∈ big.partitions, intToFloat (hashInt q.seed key) ≠ 0)
    (hres : getPartition big key = .ok n)
    (hnp : n ≠ p.name) :
    getPartition small key = .ok n := by
  obtain ⟨i, hik, hok, hmax, hfirst⟩ :=
    getPartition_ok big key (by rw [hbig]; simp) hw hf
  rw [hok] at hres
  simp only [Except.ok.injEq] at hres
  have hsub : ∀ q ∈ small.partitions, q ∈ big.partitions := by
    intro q hq
    rw [hsmall] at hq
    rw [hbig]
    rcases List.mem_append.mp hq with h | h
    · exact List.mem_append.mpr (Or.inl h)
    · exact List.mem_append.mpr (Or.inr (List.mem_cons_of_mem _ h))
  have hwS : ∀ q ∈ small.partitions, 1 ≤ q.weight := fun q hq => hw q (hsub q hq)
  have hfS : ∀ q ∈ small.partitions, intToFloat (hashInt q.seed key) ≠ 0 :=
    fun q hq => hf q (hsub q hq)
  have hlenB : big.partitions.length = l1.length + l2.length + 1 := by
    rw [hbig]
    simp
    omega
  have hlenS : small.partitions.length = l1.length + l2.length := by
    rw [hsmall]
    simp
  have hine : i ≠ l1.length := by
    intro he
    subst he
    have hmid : big.partitions[l1.length] = p := by
      simp only [hbig]
      exact getElem_append_mid l1 l2 p (by simp)
    exact hnp (hres.symm.trans (congrArg Partition.name hmid))
  by_cases hcase : i < l1.length
  · -- the winner sits before the removed partition
    have hjS : i < small.partitions.length := by omega
    have hjeq : small.partitions[i] = big.partitions[i] := by
      simp only [hsmall, hbig]
      exact getElem_append_both_low l1 l2 p i (by
      have h9 : (l1 ++ l2).length = l1.length + l2.length := by simp
      have h10 : (l1 ++ p :: l2).length = l1.length + l2.length + 1 := by simp; omega
      omega) (by
      have h9 : (l1 ++ l2).length = l1.length + l2.length := by simp
      have h10 : (l1 ++ p :: l2).length = l1.length + l2.length + 1 := by simp; omega
      omega) hcase
    have hrun := getPartition_eq_of_first_max small key i hjS hwS hfS ?_ ?_
    · rw [hrun, hjeq, hres]
    · intro k hk
      rw [hjeq]
      by_cases hkl : k < l1.length
      · have hkeq : small.partitions[k] = big.partitions[k] := by
          simp only [hsmall, hbig]
          exact getElem_append_both_low l1 l2 p k (by
      have h9 : (l1 ++ l2).length = l1.length + l2.length := by simp
      have h10 : (l1 ++ p :: l2).length = l1.length + l2.length + 1 := by simp; omega
      omega) (by
      have h9 : (l1 ++ l2).length = l1.length + l2.length := by simp
      have h10 : (l1 ++ p :: l2).length = l1.length + l2.length + 1 := by simp; omega
      omega) hkl
        rw [hkeq]
        exact hmax k (by
      have h9 : (l1 ++ l2).length = l1.length + l2.length := by simp
      have h10 : (l1 ++ p :: l2).length = l1.length + l2.length + 1 := by simp; omega
      omega)
      · have hkeq : small.partitions[k] = big.partitions[k + 1] := by
          simp only [hsmall, hbig]
          exact getElem_append_both_high l1 l2 p k (by
      have h9 : (l1 ++ l2).length = l1.length + l2.length := by simp
      have h10 : (l1 ++ p :: l2).length = l1.length + l2.length + 1 := by simp; omega
      omega) (by
      have h9 : (l1 ++ l2).length = l1.length + l2.length := by simp
      have h10 : (l1 ++ p :: l2).length = l1.length + l2.length + 1 := by simp; omega
      omega) (by
      have h9 : (l1 ++ l2).length = l1.length + l2.length := by simp
      have h10 : (l1 ++ p :: l2).length = l1.length + l2.length + 1 := by simp; omega
      omega)
        rw [hkeq]
        exact hmax (k + 1) (by
      have h9 : (l1 ++ l2).length = l1.length + l2.length := by simp
      have h10 : (l1 ++ p :: l2).length = l1.length + l2.length + 1 := by simp; omega
      omega)
    · intro k hk hki
      rw [hjeq]
      have hkeq : small.partitions[k] = big.partitions[k] := by
        simp only [hsmall, hbig]
        exact getElem_append_both_low l1 l2 p k (by
      have h9 : (l1 ++ l2).length = l1.length + l2.length := by simp
      have h10 : (l1 ++ p :: l2).length = l1.length + l2.length + 1 := by simp; omega
      omega) (by
      have h9 : (l1 ++ l2).length = l1.length + l2.length := by simp
      have h10 : (l1 ++ p :: l2).length = l1.length + l2.length + 1 := by simp; omega
      omega) (by
      have h9 : (l1 ++ l2).length = l1.length + l2.length := by simp
      have h10 : (l1 ++ p :: l2).length = l1.length + l2.length + 1 := by simp; omega
      omega)
      rw [hkeq]
      exact hfirst k (by
      have h9 : (l1 ++ l2).length = l1.length + l2.length := by simp
      have h10 : (l1 ++ p :: l2).length = l1.length + l2.length + 1 := by simp; omega
      omega) hki
  · -- the winner sits after the removed partition
    have higt : l1.length < i := by omega
    have hjS : i - 1 < small.partitions.length := by omega
    have hjeq : small.partitions[i - 1] = big.partitions[i] := by
      simp only [hsmall, hbig]
      have := getElem_append_both_high l1 l2 p (i - 1) (by
      have h9 : (l1 ++ l2).length = l1.length + l2.length := by simp
      have h10 : (l1 ++ p :: l2).length = l1.length + l2.length + 1 := by simp; omega
      omega) (by
      have h9 : (l1 ++ l2).length = l1.length + l2.length := by simp
      have h10 : (l1 ++ p :: l2).length = l1.length + l2.length + 1 := by simp; omega
      omega) (by
      have h9 : (l1 ++ l2).length = l1.length + l2.length := by simp
      have h10 : (l1 ++ p :: l2).length = l1.length + l2.length + 1 := by simp; omega
      omega)
      rw [this]
      simp only [show i - 1 + 1 = i from by omega]
    have hrun := getPartition_eq_of_first_max small key (i - 1) hjS hwS hfS ?_ ?_
    · rw [hrun, hjeq, hres]
    · intro k hk
      rw [hjeq]
      by_cases hkl : k < l1.length
      · have hkeq : small.partitions[k] = big.partitions[k] := by
          simp only [hsmall, hbig]
          exact getElem_append_both_low l1 l2 p k (by
      have h9 : (l1 ++ l2).length = l1.length + l2.length := by simp
      have h10 : (l1 ++ p :: l2).length = l1.length + l2.length + 1 := by simp; omega
      omega) (by
      have h9 : (l1 ++ l2).length = l1.length + l2.length := by simp
      have h10 : (l1 ++ p :: l2).length = l1.length + l2.length + 1 := by simp; omega
      omega) hkl
        rw [hkeq]
        exact hmax k (by
      have h9 : (l1 ++ l2).length = l1.length + l2.length := by simp
      have h10 : (l1 ++ p :: l2).length = l1.length + l2.length + 1 := by simp; omega
      omega)
      · have hkeq : small.partitions[k] = big.partitions[k + 1] := by
          simp only [hsmall, hbig]
          exact getElem_append_both_high l1 l2 p k (by
      have h9 : (l1 ++ l2).length = l1.length + l2.length := by simp
      have h10 : (l1 ++ p :: l2).length = l1.length + l2.length + 1 := by simp; omega
      omega) (by
      have h9 : (l1 ++ l2).length = l1.length + l2.length := by simp
      have h10 : (l1 ++ p :: l2).length = l1.length + l2.length + 1 := by simp; omega
      omega) (by
      have h9 : (l1 ++ l2).length = l1.length + l2.length := by simp
      have h10 : (l1 ++ p :: l2).length = l1.length + l2.length + 1 := by simp; omega
      omega)
        rw [hkeq]
        exact hmax (k + 1) (by
      have h9 : (l1 ++ l2).length = l1.length + l2.length := by simp
      have h10 : (l1 ++ p :: l2).length = l1.length + l2.length + 1 := by simp; omega
      omega)
    · intro k hk hki
      rw [hjeq]
      by_cases hkl : k < l1.length
      · have hkeq : small.partitions[k] = big.partitions[k] := by
          simp only [hsmall, hbig]
          exact getElem_append_both_low l1 l2 p k (by
      have h9 : (l1 ++ l2).length = l1.length + l2.length := by simp
      have h10 : (l1 ++ p :: l2).length = l1.length + l2.length + 1 := by simp; omega
      omega) (by
      have h9 : (l1 ++ l2).length = l1.length + l2.length := by simp
      have h10 : (l1 ++ p :: l2).length = l1.length + l2.length + 1 := by simp; omega
      omega) hkl
        rw [hkeq]
        exact hfirst k (by
      have h9 : (l1 ++ l2).length = l1.length + l2.length := by simp
      have h10 : (l1 ++ p :: l2).length = l1.length + l2.length + 1 := by simp; omega
      omega) (by
      have h9 : (l1 ++ l2).length = l1.length + l2.length := by simp
      have h10 : (l1 ++ p :: l2).length = l1.length + l2.length + 1 := by simp; omega
      omega)
      · have hkeq : small.partitions[k] = big.partitions[k + 1] := by
          simp only [hsmall, hbig]
          exact getElem_append_both_high l1 l2 p k (by
      have h9 : (l1 ++ l2).length = l1.length + l2.length := by simp
      have h10 : (l1 ++ p :: l2).length = l1.length + l2.length + 1 := by simp; omega
      omega) (by
      have h9 : (l1 ++ l2).length = l1.length + l2.length := by simp
      have h10 : (l1 ++ p :: l2).length = l1.length + l2.length + 1 := by simp; omega
      omega) (by
      have h9 : (l1 ++ l2).length = l1.length + l2.length := by simp
      have h10 : (l1 ++ p :: l2).length = l1.length + l2.length + 1 := by simp; omega
      omega)
        rw [hkeq]
        exact hfirst (k + 1) (by
      have h9 : (l1 ++ l2).length = l1.length + l2.length := by simp
      have h10 : (l1 ++ p :: l2).length = l1.length + l2.length + 1 := by simp; omega
      omega) (by
      have h9 : (l1 ++ l2).length = l1.length + l2.length := by simp
      have h10 : (l1 ++ p :: l2).length = l1.length + l2.length + 1 := by simp; omega
      omega)

end PartitionManager

namespace PartitionManager

/-- Routing `"key3"` on `pmBig`: partitions `"a"` and `"b"` tie exactly
(same weight, same seed), `"c"` scores strictly lower; the first maximum
in iteration order, `"a"`, wins. -/
theorem pmBig_run : getPartition pmBig "key3" = .ok "a" := by
  have hfs : intToFloat (hashInt "s" "key3") ≠ 0 := intToFloat_ne_zero _ (by decide)
  have hft : intToFloat (hashInt "t" "key3") ≠ 0 := intToFloat_ne_zero _ (by decide)
  have h0s : 0 < intToFloat (hashInt "s" "key3") := intToFloat_pos _ (by decide)
  have h0t : 0 < intToFloat (hashInt "t" "key3") := intToFloat_pos _ (by decide)
  have hup : (-1 : ℝ) < scoreVal 1 (intToFloat (hashInt "s" "key3")) :=
    neg_one_lt_scoreVal_of_one_le le_rfl h0s (intToFloat_lt_one _)
  have hts : scoreVal 1 (intToFloat (hashInt "t" "key3"))
      < scoreVal 1 (intToFloat (hashInt "s" "key3")) := by
    rw [scoreVal_lt_iff h0s (intToFloat_lt_one _) h0t (intToFloat_lt_one _),
      zpow_one, zpow_one]
    exact (intToFloat_lt_iff _ _).mpr (by decide)
  show getPartition ⟨[{ name := "a", weight := 1, seed := "s" },
      { name := "b", weight := 1, seed := "s" },
      { name := "c", weight := 1, seed := "t" }]⟩ "key3" = .ok "a"
  rw [getPartition_cons₂,
    routeLoop_cons_update "key3" { name := "a", weight := 1, seed := "s" }
      [{ name := "b", weight := 1, seed := "s" },
       { name := "c", weight := 1, seed := "t" }] none (-1) hfs hup,
    routeLoop_cons_keep "key3" { name := "b", weight := 1, seed := "s" }
      [{ name := "c", weight := 1, seed := "t" }]
      (some { name := "a", weight := 1, seed := "s" })
      (computeWeightedScore { name := "a", weight := 1, seed := "s" } "key3")
      hfs (lt_irrefl _),
    routeLoop_cons_keep "key3" { name := "c", weight := 1, seed := "t" }
      []
      (some { name := "a", weight := 1, seed := "s" })
      (computeWeightedScore { name := "a", weight := 1, seed := "s" } "key3")
      hft (asymm hts),
    routeLoop_nil_some]

/-- Routing `"key3"` on `pmSmall` (the same partitions as `pmBig` minus
`"c"`, listed in the other order): now `"b"` is encountered first among
the tied pair and wins. -/
theorem pmSmall_run : getPartition pmSmall "key3" = .ok "b" := by
  have hfs : intToFloat (hashInt "s" "key3") ≠ 0 := intToFloat_ne_zero _ (by decide)
  have h0s : 0 < intToFloat (hashInt "s" "key3") := intToFloat_pos _ (by decide)
  have hup : (-1 : ℝ) < scoreVal 1 (intToFloat (hashInt "s" "key3")) :=
    neg_one_lt_scoreVal_of_one_le le_rfl h0s (intToFloat_lt_one _)
  show getPartition ⟨[{ name := "b", weight := 1, seed := "s" },
      { name := "a", weight := 1, seed := "s" }]⟩ "key3" = .ok "b"
  rw [getPartition_cons₂,
    routeLoop_cons_update "key3" { name := "b", weight := 1, seed := "s" }
      [{ name := "a", weight := 1, seed := "s" }] none (-1) hfs hup,
    routeLoop_cons_keep "key3" { name := "a", weight := 1, seed := "s" }
      []
      (some { name := "b", weight := 1, seed := "s" })
      (computeWeightedScore { name := "b", weight := 1, seed := "s" } "key3")
      hfs (lt_irrefl _),
    routeLoop_nil_some]

/-- C2 counterexample: `pmSmall`'s partition set is `pmBig`'s minus the
partition `"c"` (shared partitions keep their weights and seeds — `"a"`
and `"b"` legitimately share the seed `"s"` via `partition_seeds`), and
`pmBig` routes `"key3"` to `"a"`, not `"c"`; yet `pmSmall` routes it to
`"b"`, because the exact tie between `"a"` and `"b"` is broken by the
set's iteration order, which the claim leaves unconstrained. -/
theorem claim2_counterexample :
    (∀ q : Partition, q ∈ pmSmall.partitions ↔
      q ∈ pmBig.partitions ∧ q ≠ { name := "c", weight := 1, seed := "t" }) ∧
    getPartition pmBig "key3" = .ok "a" ∧
    ("a" : String) ≠ ({ name := "c", weight := 1, seed := "t" } : Partition).name ∧
    getPartition pmSmall "key3" = .ok "b" ∧
    ("b" : String) ≠ "a" := by
  refine ⟨?_, pmBig_run, by decide, pmSmall_run, by decide⟩
  intro q
  simp only [pmSmall, pmBig, List.mem_cons, List.not_mem_nil, or_false]
  constructor
  · rintro (rfl | rfl)
    · exact ⟨Or.inr (Or.inl rfl), by decide⟩
    · exact ⟨Or.inl rfl, by decide⟩
  · rintro ⟨rfl | rfl | rfl, hne⟩
    · exact Or.inr rfl
    · exact Or.inl rfl
    · exact absurd rfl hne

/-- Routing `"key0"` on `pmXYZ`: `"x"` scores strictly highest. -/
theorem pmXYZ_run : getPartition pmXYZ "key0" = .ok "x" := by
  have hfx : intToFloat (hashInt "x" "key0") ≠ 0 := intToFloat_ne_zero _ (by decide)
  have hfy : intToFloat (hashInt "y" "key0") ≠ 0 := intToFloat_ne_zero _ (by decide)
  have hfz : intToFloat (hashInt "z" "key0") ≠ 0 := intToFloat_ne_zero _ (by decide)
  have h0x : 0 < intToFloat (hashInt "x" "key0") := intToFloat_pos _ (by decide)
  have h0y : 0 < intToFloat (hashInt "y" "key0") := intToFloat_pos _ (by decide)
  have h0z : 0 < intToFloat (hashInt "z" "key0") := intToFloat_pos _ (by decide)
  have hup : (-1 : ℝ) < scoreVal 1 (intToFloat (hashInt "x" "key0")) :=
    neg_one_lt_scoreVal_of_one_le le_rfl h0x (intToFloat_lt_one _)
  have hyx : scoreVal 1 (intToFloat (hashInt "y" "key0"))
      < scoreVal 1 (intToFloat (hashInt "x" "key0")) := by
    rw [scoreVal_lt_iff h0x (intToFloat_lt_one _) h0y (intToFloat_lt_one _),
      zpow_one, zpow_one]
    exact (intToFloat_lt_iff _ _).mpr (by decide)
  have hzx : scoreVal 1 (intToFloat (hashInt "z" "key0"))
      < scoreVal 1 (intToFloat (hashInt "x" "key0")) := by
    rw [scoreVal_lt_iff h0x (intToFloat_lt_one _) h0z (intToFloat_lt_one _),
      zpow_one, zpow_one]
    exact (intToFloat_lt_iff _ _).mpr (by decide)
  show getPartition ⟨[{ name := "x", weight := 1, seed := "x" },
      { name := "y", weight := 1, seed := "y" },
      { name := "z", weight := 1, seed := "z" }]⟩ "key0" = .ok "x"
  rw [getPartition_cons₂,
    routeLoop_cons_update "key0" { name := "x", weight := 1, seed := "x" }
      [{ name := "y", weight := 1, seed := "y" },
       { name := "z", weight := 1, seed := "z" }] none (-1) hfx hup,
    routeLoop_cons_keep "key0" { name := "y", weight := 1, seed := "y" }
      [{ name := "z", weight := 1, seed := "z" }]
      (some { name := "x", weight := 1, seed := "x" })
      (computeWeightedScore { name := "x", weight := 1, seed := "x" } "key0")
      hfy (asymm hyx),
    routeLoop_cons_keep "key0" { name := "z", weight := 1, seed := "z" }
      []
      (some { name := "x", weight := 1, seed := "x" })
      (computeWeightedScore { name := "x", weight := 1, seed := "x" } "key0")
      hfz (asymm hzx),
    routeLoop_nil_some]

/-- C2 amended, witnessed concretely: removing `"z"` from `pmXYZ` while
keeping the order of `"x"`, `"y"` leaves the routing of `"key0"` (which
goes to `"x"`, not `"z"`) unchanged. -/
theorem claim2_witness : getPartition pmXY "key0" = .ok "x" := by
  refine claim2_minimal_disruption pmXYZ pmXY
    { name := "z", weight := 1, seed := "z" }
    [{ name := "x", weight := 1, seed := "x" },
     { name := "y", weight := 1, seed := "y" }] [] "key0" "x"
    rfl rfl (by decide) ?_ pmXYZ_run (by decide)
  intro p hp
  simp only [pmXYZ, List.mem_cons, List.not_mem_nil, or_false] at hp
  rcases hp with rfl | rfl | rfl
  · exact intToFloat_ne_zero _ (by decide)
  · exact intToFloat_ne_zero _ (by decide)
  · exact intToFloat_ne_zero _ (by decide)

end PartitionManager
